import Mathlib

/-!
Verification of the `recordtrie` package (a read-only trie-based multi-valued
key-value store).  Go strings are byte sequences; we embed them as `List Nat`
(each element a byte value, the separator byte being 255).  The external trie
engine (`marisa`) is not part of this repository; it is modelled from the
specification of the engine interface: bulk construction sorts the collection
of composite keys ascending lexicographically, predictive search enumerates the
stored sequences extending the query in that same ascending order, and
serialization preserves all stored content.
-/

/-- A stored record: a (Key, Value) pair of byte sequences (`Record` in
`recordtrie.go`). -/
structure Record where
  key : List Nat
  value : List Nat
deriving DecidableEq, Repr

/-- The byte used to separate the key from the value in the trie
(`KV_SEPARATOR = "\xFF"` in `recordtrie.go`). -/
def KV_SEPARATOR : Nat := 255

/-- Go `buildTrieKey(key, value)`: the concatenation key ++ separator ++ value. -/
def buildTrieKey (key value : List Nat) : List Nat :=
  key ++ KV_SEPARATOR :: value

/-- Go `splitTrieKey(trieKey)`: `strings.SplitN(trieKey, KV_SEPARATOR, 2)` —
split at the first separator byte; when no separator occurs the whole input is
the key and the value is empty. -/
def splitTrieKey : List Nat → List Nat × List Nat
  | [] => ([], [])
  | c :: rest =>
    if c = KV_SEPARATOR then ([], rest)
    else (c :: (splitTrieKey rest).1, (splitTrieKey rest).2)

/-- Boolean lexicographic comparison of byte sequences (ascending order used by
the modelled trie engine). -/
def lexLe : List Nat → List Nat → Bool
  | [], _ => true
  | _ :: _, [] => false
  | a :: as, b :: bs => if a < b then true else if b < a then false else lexLe as bs

/-- The engine's ordering of stored byte sequences, as a proposition. -/
def LeC (a b : List Nat) : Prop := lexLe a b = true

instance : DecidableRel LeC := fun a b => decidable_of_iff (lexLe a b = true) Iff.rfl

/-- Boolean test that the byte sequence `pre` is a prefix of `l` (the matching
notion of the engine's predictive search). -/
def isPrefixOfB : List Nat → List Nat → Bool
  | [], _ => true
  | _ :: _, [] => false
  | a :: as, b :: bs => a == b && isPrefixOfB as bs

/-- Modelled from the spec: the external Trie Engine's immutable store (the
`marisa.Trie` of the repository's dependency, absent from the sources).  Its
observable content is the collection of stored byte sequences, kept in
ascending lexicographic order. -/
structure Trie where
  keys : List (List Nat)
deriving DecidableEq

/-- Modelled from the spec: the engine's bulk build (`marisa` `Build` on a
keyset) stores the given byte sequences, internally sorted ascending; the
record store must not assume deduplication, and this engine model keeps
duplicates. -/
def trieBuild (ks : List (List Nat)) : Trie :=
  ⟨List.insertionSort LeC ks⟩

/-- Modelled from the spec: the engine's predictive search enumerates every
stored sequence that extends the query, in ascending lexicographic order. -/
def predictiveSearch (t : Trie) (query : List Nat) : List (List Nat) :=
  t.keys.filter (fun tk => isPrefixOfB query tk)

/-- The `RecordTrie` store: a wrapper around the engine's trie
(`recordtrie.go`, `type RecordTrie struct`). -/
structure RecordTrie where
  t : Trie
deriving DecidableEq

/-- Go `(r *RecordTrie) build(records)`: encode every record with
`buildTrieKey`, push the composite keys into a keyset and hand it to the
engine's `Build`. -/
def RecordTrie.build (records : List Record) : Trie :=
  trieBuild (records.map (fun record => buildTrieKey record.key record.value))

/-- Go `New(records)`: create a `RecordTrie` holding the trie built from the
records. -/
def New (records : List Record) : RecordTrie :=
  ⟨RecordTrie.build records⟩

/-- Go `(r *RecordTrie) iter(query, iterFunc)`: predictive search on the query,
decoding each matching composite key with `splitTrieKey`.  The callback's early
stop is modelled at each caller; `iter` itself is the decoded match sequence in
engine (ascending) order. -/
def RecordTrie.iter (r : RecordTrie) (query : List Nat) : List (List Nat × List Nat) :=
  (predictiveSearch r.t query).map splitTrieKey

/-- Go `(r *RecordTrie) Exists(key)`: search with `buildTrieKey(key, "")`, set
the flag on the first match and stop. -/
def RecordTrie.Exists (r : RecordTrie) (key : List Nat) : Bool :=
  match r.iter (buildTrieKey key []) with
  | [] => false
  | _ :: _ => true

/-- Go `(r *RecordTrie) Find(key)`: search with `buildTrieKey(key, "")` and
collect the value component of every match. -/
def RecordTrie.Find (r : RecordTrie) (key : List Nat) : List (List Nat) :=
  (r.iter (buildTrieKey key [])).map (fun kv => kv.2)

/-- Go `(r *RecordTrie) KeysStartingWith(keyPrefix)`: search with the raw
prefix and collect the key component of every match. -/
def RecordTrie.KeysStartingWith (r : RecordTrie) (pre : List Nat) : List (List Nat) :=
  (r.iter pre).map (fun kv => kv.1)

/-- Go `(r *RecordTrie) Records()`: search with the empty query and collect
every decoded (key, value) pair. -/
def RecordTrie.Records (r : RecordTrie) : List Record :=
  (r.iter []).map (fun kv => ⟨kv.1, kv.2⟩)

/-- Ordering of records by their composite trie key: the order in which the
engine enumerates the store's content. -/
def RecLe (r1 r2 : Record) : Prop :=
  LeC (buildTrieKey r1.key r1.value) (buildTrieKey r2.key r2.value)

instance : DecidableRel RecLe := fun a b =>
  decidable_of_iff
    (lexLe (buildTrieKey a.key a.value) (buildTrieKey b.key b.value) = true) Iff.rfl

/-- Ordering of records ascending by the (key, value) pair itself (the order
named by the specification's result-ordering clauses). -/
def pairLe (r1 r2 : Record) : Prop :=
  if r1.key = r2.key then lexLe r1.value r2.value = true else lexLe r1.key r2.key = true

instance : DecidableRel pairLe := fun a b => by
  unfold pairLe
  infer_instance

/-- A file system, mapping a path to the serialized trie stored there (the
serialized form is opaque; per the spec it preserves exactly the stored
content, so it is modelled as the stored key collection). -/
def FS : Type := String → Option (List (List Nat))

/-- Modelled from the spec: the engine's serialization (`marisa` `Save`, absent
from the sources) writes an opaque form to the path, preserving all stored
content and query behavior. -/
def trieSave (t : Trie) (path : String) (fs : FS) : FS :=
  fun p => if p = path then some t.keys else fs p

/-- Go `(r *RecordTrie) Save(path)`: delegate to the engine's save (the
fault-free path; the fault path is `SaveO` below). -/
def RecordTrie.Save (r : RecordTrie) (path : String) (fs : FS) : FS :=
  trieSave r.t path fs

/-- Go `NewFromFile(path)`: memory-map the file at the path into a fresh trie;
a missing file makes the engine fault, which `recover` turns into a returned
error. -/
def NewFromFile (path : String) (fs : FS) : Except String RecordTrie :=
  match fs path with
  | some ks => Except.ok ⟨⟨ks⟩⟩
  | none => Except.error "mmap failed"

/-- Result of a Go call whose callee may raise an abrupt fault: a normal
result, a returned error, or an escaping unrecovered fault. -/
inductive Outcome (α : Type) where
  | ok : α → Outcome α
  | err : String → Outcome α
  | crashed : String → Outcome α

/-- Whether the outcome is an abrupt fault escaping the call unhandled. -/
def Outcome.isCrash {α : Type} : Outcome α → Bool
  | .crashed _ => true
  | _ => false

/-- Go `defer func() { if r := recover(); r != nil { err = ... } }()`: an
abrupt fault of the wrapped call becomes a returned error. -/
def recoverToErr {α : Type} : Outcome α → Outcome α
  | .crashed m => .err m
  | o => o

/-- Modelled from the spec: the engine's bulk build may raise an abrupt
low-level fault; `fault = true` exercises that path. -/
def trieBuildO (fault : Bool) (ks : List (List Nat)) : Outcome Trie :=
  if fault then .crashed "marisa: build fault" else .ok (trieBuild ks)

/-- Go `New(records)` with the engine's fault path made explicit: `New`
installs no `recover` handler, so an engine fault propagates out of it
unhandled. -/
def NewO (fault : Bool) (records : List Record) : Outcome RecordTrie :=
  match trieBuildO fault
      (records.map (fun record => buildTrieKey record.key record.value)) with
  | .ok t => .ok ⟨t⟩
  | .err m => .err m
  | .crashed m => .crashed m

/-- Modelled from the spec: the engine's save may raise an abrupt fault. -/
def trieSaveO (fault : Bool) (t : Trie) (path : String) (fs : FS) : Outcome FS :=
  if fault then .crashed "marisa: save fault" else .ok (trieSave t path fs)

/-- Go `Save` with the engine's fault path made explicit: the deferred
`recover` converts any fault into the returned error. -/
def SaveO (fault : Bool) (r : RecordTrie) (path : String) (fs : FS) : Outcome FS :=
  recoverToErr (trieSaveO fault r.t path fs)

/-- Modelled from the spec: the engine's memory-mapped load raises an abrupt
fault on an internal error or an unreadable file. -/
def trieMmapO (fault : Bool) (path : String) (fs : FS) : Outcome Trie :=
  if fault then .crashed "marisa: mmap fault"
  else
    match fs path with
    | some ks => .ok ⟨ks⟩
    | none => .crashed "marisa: cannot open file"

/-- Go `NewFromFile` with the engine's fault path made explicit: the deferred
`recover` converts any fault into the returned error. -/
def NewFromFileO (fault : Bool) (path : String) (fs : FS) : Outcome RecordTrie :=
  match recoverToErr (trieMmapO fault path fs) with
  | .ok t => .ok ⟨t⟩
  | .err m => .err m
  | .crashed m => .crashed m

/-- Sanity check: Scenario A of the spec, with the bytes of "foo", "bar",
"abc", "def", "baz": `Find("foo")` returns ["bar", "baz"] ascending. -/
theorem scenario_a_find_foo :
    (New [⟨[102, 111, 111], [98, 97, 114]⟩, ⟨[97, 98, 99], [100, 101, 102]⟩,
      ⟨[102, 111, 111], [98, 97, 122]⟩]).Find [102, 111, 111] =
      [[98, 97, 114], [98, 97, 122]] := by decide

/-- Sanity check: Scenario A, `Find("def")` on the same store is empty. -/
theorem scenario_a_find_absent :
    (New [⟨[102, 111, 111], [98, 97, 114]⟩, ⟨[97, 98, 99], [100, 101, 102]⟩,
      ⟨[102, 111, 111], [98, 97, 122]⟩]).Find [100, 101, 102] = [] := by decide

/-- Splitting after building recovers the pair, provided the key is free of the
separator byte. -/
theorem splitTrieKey_buildTrieKey (key value : List Nat) (h : KV_SEPARATOR ∉ key) :
    splitTrieKey (buildTrieKey key value) = (key, value) := by
  induction key with
  | nil => simp [buildTrieKey, splitTrieKey]
  | cons c rest ih =>
    have hc : c ≠ KV_SEPARATOR := fun hce => h (hce ▸ List.mem_cons_self c rest)
    have hrest : KV_SEPARATOR ∉ rest := fun hm => h (List.mem_cons_of_mem c hm)
    have h2 : splitTrieKey (rest ++ KV_SEPARATOR :: value) = (rest, value) := ih hrest
    simp [buildTrieKey, splitTrieKey, hc, h2]

/-- C3: for every key byte sequence without the separator byte 0xFF and every
value byte sequence (the value may contain 0xFF), `splitTrieKey` after
`buildTrieKey` returns exactly the original pair. -/
theorem roundtrip_split_build (key value : List Nat) (h : KV_SEPARATOR ∉ key) :
    splitTrieKey (buildTrieKey key value) = (key, value) :=
  splitTrieKey_buildTrieKey key value h

/-- Witness for C3 at key "foo" = [102, 111, 111], value "b\xFFz" =
[98, 255, 122] (a value containing the separator byte). -/
theorem roundtrip_split_build_witness :
    splitTrieKey (buildTrieKey [102, 111, 111] [98, 255, 122]) =
      ([102, 111, 111], [98, 255, 122]) :=
  roundtrip_split_build [102, 111, 111] [98, 255, 122] (by decide)

/-- C7: `splitTrieKey` splits at the first separator byte: with no separator
the whole input is the key and the value is empty; writing the input as
k ++ 0xFF :: v with k separator-free (so that this 0xFF is the first one),
the key is k and the value is v verbatim, further separator bytes included. -/
theorem splitTrieKey_first_separator (b : List Nat) :
    (KV_SEPARATOR ∉ b → splitTrieKey b = (b, [])) ∧
      (∀ k v : List Nat, KV_SEPARATOR ∉ k → b = k ++ KV_SEPARATOR :: v →
        splitTrieKey b = (k, v)) := by
  constructor
  · intro hb
    induction b with
    | nil => simp [splitTrieKey]
    | cons c rest ih =>
      have hc : c ≠ KV_SEPARATOR := fun hce => hb (hce ▸ List.mem_cons_self c rest)
      have hrest : KV_SEPARATOR ∉ rest := fun hm => hb (List.mem_cons_of_mem c hm)
      simp [splitTrieKey, hc, ih hrest]
  · intro k v hk hb
    subst hb
    exact splitTrieKey_buildTrieKey k v hk

/-- Witness for C7 on the input "foo\xFFbar\xFF" (a trailing separator byte
stays in the value verbatim, matching the repository's key-encoding test). -/
theorem splitTrieKey_first_separator_witness :
    splitTrieKey [102, 111, 111, 255, 98, 97, 114, 255] =
      ([102, 111, 111], [98, 97, 114, 255]) :=
  (splitTrieKey_first_separator [102, 111, 111, 255, 98, 97, 114, 255]).2
    [102, 111, 111] [98, 97, 114, 255] (by decide) (by decide)

theorem lexLe_refl (a : List Nat) : lexLe a a = true := by
  induction a with
  | nil => rfl
  | cons x xs ih => simp [lexLe, Nat.lt_irrefl, ih]

theorem lexLe_total (a b : List Nat) : lexLe a b = true ∨ lexLe b a = true := by
  induction a generalizing b with
  | nil => exact Or.inl rfl
  | cons x xs ih =>
    cases b with
    | nil => exact Or.inr rfl
    | cons y ys =>
      rcases Nat.lt_trichotomy x y with hxy | hxy | hxy
      · exact Or.inl (by simp [lexLe, hxy])
      · subst hxy
        rcases ih ys with h | h
        · exact Or.inl (by simp [lexLe, Nat.lt_irrefl, h])
        · exact Or.inr (by simp [lexLe, Nat.lt_irrefl, h])
      · exact Or.inr (by simp [lexLe, hxy])

theorem lexLe_trans (a b c : List Nat) (h1 : lexLe a b = true) (h2 : lexLe b c = true) :
    lexLe a c = true := by
  induction a generalizing b c with
  | nil => rfl
  | cons x xs ih =>
    cases b with
    | nil => simp [lexLe] at h1
    | cons y ys =>
      cases c with
      | nil => simp [lexLe] at h2
      | cons z zs =>
        rcases Nat.lt_trichotomy x y with hxy | hxy | hxy
        · rcases Nat.lt_trichotomy y z with hyz | hyz | hyz
          · simp [lexLe, Nat.lt_trans hxy hyz]
          · subst hyz
            simp [lexLe, hxy]
          · exfalso
            simp [lexLe, hyz, Nat.lt_asymm hyz] at h2
        · subst hxy
          rcases Nat.lt_trichotomy x z with hxz | hxz | hxz
          · simp [lexLe, hxz]
          · subst hxz
            simp only [lexLe, Nat.lt_irrefl, if_false] at h1 h2 ⊢
            exact ih ys zs h1 h2
          · exfalso
            simp [lexLe, hxz, Nat.lt_asymm hxz] at h2
        · exfalso
          simp [lexLe, hxy, Nat.lt_asymm hxy] at h1

theorem lexLe_antisymm (a b : List Nat) (h1 : lexLe a b = true) (h2 : lexLe b a = true) :
    a = b := by
  induction a generalizing b with
  | nil =>
    cases b with
    | nil => rfl
    | cons y ys => simp [lexLe] at h2
  | cons x xs ih =>
    cases b with
    | nil => simp [lexLe] at h1
    | cons y ys =>
      rcases Nat.lt_trichotomy x y with hxy | hxy | hxy
      · exfalso
        simp [lexLe, hxy, Nat.lt_asymm hxy] at h2
      · subst hxy
        simp only [lexLe, Nat.lt_irrefl, if_false] at h1 h2
        exact congrArg (x :: ·) (ih ys h1 h2)
      · exfalso
        simp [lexLe, hxy, Nat.lt_asymm hxy] at h1

instance : IsTotal (List Nat) LeC := ⟨lexLe_total⟩

instance : IsTrans (List Nat) LeC := ⟨lexLe_trans⟩

instance : IsAntisymm (List Nat) LeC := ⟨lexLe_antisymm⟩

theorem lexLe_append_left (a x y : List Nat) :
    lexLe (a ++ x) (a ++ y) = lexLe x y := by
  induction a with
  | nil => rfl
  | cons c cs ih => simp [lexLe, Nat.lt_irrefl, ih]

theorem isPrefixOfB_iff (pre l : List Nat) :
    isPrefixOfB pre l = true ↔ ∃ rest, l = pre ++ rest := by
  induction pre generalizing l with
  | nil =>
    simp [isPrefixOfB]
  | cons a as ih =>
    cases l with
    | nil => simp [isPrefixOfB]
    | cons b bs =>
      simp only [isPrefixOfB, Bool.and_eq_true, beq_iff_eq, ih, List.cons_append,
        List.cons.injEq]
      constructor
      · rintro ⟨rfl, rest, rfl⟩
        exact ⟨rest, rfl, rfl⟩
      · rintro ⟨rest, rfl, rfl⟩
        exact ⟨rfl, rest, rfl⟩

theorem isPrefixOfB_build_iff (k rk rv : List Nat) (hk : KV_SEPARATOR ∉ k)
    (hrk : KV_SEPARATOR ∉ rk) :
    (isPrefixOfB (buildTrieKey k []) (buildTrieKey rk rv) = true) ↔ rk = k := by
  induction k generalizing rk with
  | nil =>
    cases rk with
    | nil => simp [buildTrieKey, isPrefixOfB]
    | cons d rk' =>
      have hd : d ≠ KV_SEPARATOR := fun hde => hrk (hde ▸ List.mem_cons_self d rk')
      simp [buildTrieKey, isPrefixOfB, Ne.symm hd]
  | cons c k' ih =>
    have hc : c ≠ KV_SEPARATOR := fun hce => hk (hce ▸ List.mem_cons_self c k')
    have hk' : KV_SEPARATOR ∉ k' := fun hm => hk (List.mem_cons_of_mem c hm)
    cases rk with
    | nil => simp [buildTrieKey, isPrefixOfB, hc]
    | cons d rk' =>
      have hrk' : KV_SEPARATOR ∉ rk' := fun hm => hrk (List.mem_cons_of_mem d hm)
      have hrec := ih rk' hk' hrk'
      simp only [buildTrieKey, List.cons_append, isPrefixOfB, Bool.and_eq_true,
        beq_iff_eq] at hrec ⊢
      simp [hrec, List.cons.injEq]
      tauto

theorem isPrefixOfB_raw_build (pre rk rv : List Nat) (hp : KV_SEPARATOR ∉ pre) :
    (isPrefixOfB pre (buildTrieKey rk rv) = true) ↔ isPrefixOfB pre rk = true := by
  induction pre generalizing rk with
  | nil => simp [isPrefixOfB]
  | cons c p' ih =>
    have hc : c ≠ KV_SEPARATOR := fun hce => hp (hce ▸ List.mem_cons_self c p')
    have hp' : KV_SEPARATOR ∉ p' := fun hm => hp (List.mem_cons_of_mem c hm)
    cases rk with
    | nil => simp [buildTrieKey, isPrefixOfB, hc]
    | cons d rk' =>
      have hrec := ih rk' hp'
      simp only [buildTrieKey, List.cons_append, isPrefixOfB, Bool.and_eq_true,
        beq_iff_eq] at hrec ⊢
      tauto

theorem bool_eq_of_iff {a b : Bool} (h : a = true ↔ b = true) : a = b := by
  cases a <;> cases b <;> simp_all

theorem build_nil_append (k rest : List Nat) :
    buildTrieKey k [] ++ rest = buildTrieKey k rest := by
  simp [buildTrieKey]

theorem new_t_keys (records : List Record) :
    (New records).t.keys =
      List.insertionSort LeC
        (records.map (fun r => buildTrieKey r.key r.value)) := rfl

theorem find_eq (r : RecordTrie) (k : List Nat) :
    r.Find k =
      (r.t.keys.filter (fun tk => isPrefixOfB (buildTrieKey k []) tk)).map
        (fun tk => (splitTrieKey tk).2) := by
  simp [RecordTrie.Find, RecordTrie.iter, predictiveSearch, List.map_map]

theorem keys_starting_with_eq (r : RecordTrie) (pre : List Nat) :
    r.KeysStartingWith pre =
      (r.t.keys.filter (fun tk => isPrefixOfB pre tk)).map
        (fun tk => (splitTrieKey tk).1) := by
  simp [RecordTrie.KeysStartingWith, RecordTrie.iter, predictiveSearch, List.map_map]

theorem records_eq (r : RecordTrie) :
    r.Records =
      (r.t.keys.filter (fun tk => isPrefixOfB [] tk)).map
        (fun tk => ⟨(splitTrieKey tk).1, (splitTrieKey tk).2⟩) := by
  simp [RecordTrie.Records, RecordTrie.iter, predictiveSearch, List.map_map]

theorem exists_true_iff (r : RecordTrie) (k : List Nat) :
    (r.Exists k = true) ↔ r.iter (buildTrieKey k []) ≠ [] := by
  unfold RecordTrie.Exists
  cases r.iter (buildTrieKey k []) <;> simp

theorem filtered_perm (records : List Record) (P : List Nat → Bool) :
    ((New records).t.keys.filter P).Perm
      ((records.filter (fun r => P (buildTrieKey r.key r.value))).map
        (fun r => buildTrieKey r.key r.value)) := by
  rw [new_t_keys]
  refine ((List.perm_insertionSort LeC _).filter P).trans ?_
  rw [List.filter_map]
  exact List.Perm.refl _

theorem filtered_sorted (records : List Record) (P : List Nat → Bool) :
    List.Sorted LeC ((New records).t.keys.filter P) := by
  rw [new_t_keys]
  exact List.Pairwise.filter P (List.sorted_insertionSort LeC _)

theorem map_orderedInsert (a : Record) (l : List Record) :
    (List.orderedInsert RecLe a l).map (fun r => buildTrieKey r.key r.value) =
      List.orderedInsert LeC (buildTrieKey a.key a.value)
        (l.map (fun r => buildTrieKey r.key r.value)) := by
  induction l with
  | nil => rfl
  | cons b l ih =>
    by_cases h : RecLe a b
    · have h' : LeC (buildTrieKey a.key a.value) (buildTrieKey b.key b.value) := h
      simp [List.orderedInsert, h, h']
    · have h' : ¬ LeC (buildTrieKey a.key a.value) (buildTrieKey b.key b.value) := h
      simp [List.orderedInsert, h, h', ih]

theorem map_insertionSort (l : List Record) :
    (List.insertionSort RecLe l).map (fun r => buildTrieKey r.key r.value) =
      List.insertionSort LeC (l.map (fun r => buildTrieKey r.key r.value)) := by
  induction l with
  | nil => rfl
  | cons a l ih => simp [List.insertionSort, map_orderedInsert, ih]

theorem lexLe_build_same_key (k ra rb : List Nat) :
    lexLe (buildTrieKey k ra) (buildTrieKey k rb) = lexLe ra rb := by
  unfold buildTrieKey
  rw [lexLe_append_left]
  simp [lexLe, Nat.lt_irrefl]

/-- C1: on a store built from records whose keys are free of the separator
byte, `Find k` (for a separator-free key k) returns exactly the multiset of
values of the records with key k, in ascending order of the value bytes. -/
theorem find_correct (records : List Record) (k : List Nat)
    (hR : ∀ r ∈ records, KV_SEPARATOR ∉ r.key) (hk : KV_SEPARATOR ∉ k) :
    ((New records).Find k).Perm
        ((records.filter (fun r => r.key == k)).map Record.value) ∧
      List.Sorted LeC ((New records).Find k) := by
  have hpt : ∀ r ∈ records,
      (isPrefixOfB (buildTrieKey k []) (buildTrieKey r.key r.value)) = (r.key == k) := by
    intro r hr
    exact bool_eq_of_iff
      (by rw [isPrefixOfB_build_iff k r.key r.value hk (hR r hr), beq_iff_eq])
  have hperm : ((New records).t.keys.filter
        (fun tk => isPrefixOfB (buildTrieKey k []) tk)).Perm
      ((records.filter (fun r => r.key == k)).map
        (fun r => buildTrieKey r.key r.value)) := by
    refine (filtered_perm records _).trans ?_
    rw [List.filter_congr hpt]
  constructor
  · rw [find_eq]
    refine (hperm.map _).trans ?_
    rw [List.map_map]
    have hmc : (records.filter (fun r => r.key == k)).map
          ((fun tk => (splitTrieKey tk).2) ∘ (fun r => buildTrieKey r.key r.value)) =
        (records.filter (fun r => r.key == k)).map Record.value := by
      apply List.map_congr_left
      intro r hr
      have hrk : KV_SEPARATOR ∉ r.key := hR r (List.mem_of_mem_filter hr)
      simp [Function.comp, splitTrieKey_buildTrieKey r.key r.value hrk]
    rw [hmc]
  · rw [find_eq]
    unfold List.Sorted
    refine List.pairwise_map.mpr ?_
    refine List.Pairwise.imp_of_mem ?_
      (filtered_sorted records _ : List.Pairwise LeC _)
    intro a b ha hb hab
    obtain ⟨-, hPa⟩ := List.mem_filter.mp ha
    obtain ⟨-, hPb⟩ := List.mem_filter.mp hb
    obtain ⟨ra, rfl⟩ := (isPrefixOfB_iff _ _).mp hPa
    obtain ⟨rb, rfl⟩ := (isPrefixOfB_iff _ _).mp hPb
    have e1 := build_nil_append k ra
    have e2 := build_nil_append k rb
    rw [e1, e2] at hab
    rw [e1, e2, splitTrieKey_buildTrieKey k ra hk, splitTrieKey_buildTrieKey k rb hk]
    have hab' : lexLe (buildTrieKey k ra) (buildTrieKey k rb) = true := hab
    show lexLe ra rb = true
    rw [← lexLe_build_same_key k ra rb]
    exact hab'

/-- Witness for C1: three records, two of them with key [1]; `Find [1]`
returns both values in ascending order. -/
theorem find_correct_witness :
    ((New [⟨[1], [3]⟩, ⟨[0], [7]⟩, ⟨[1], [2]⟩]).Find [1]).Perm
        ((([⟨[1], [3]⟩, ⟨[0], [7]⟩, ⟨[1], [2]⟩] : List Record).filter
            (fun r => r.key == [1])).map Record.value) ∧
      List.Sorted LeC ((New [⟨[1], [3]⟩, ⟨[0], [7]⟩, ⟨[1], [2]⟩]).Find [1]) :=
  find_correct [⟨[1], [3]⟩, ⟨[0], [7]⟩, ⟨[1], [2]⟩] [1] (by decide) (by decide)

/-- C4: on a store built from records whose keys are free of the separator
byte, `Exists k` (for a separator-free key k) is true exactly when some record
has key k. -/
theorem exists_correct (records : List Record) (k : List Nat)
    (hR : ∀ r ∈ records, KV_SEPARATOR ∉ r.key) (hk : KV_SEPARATOR ∉ k) :
    ((New records).Exists k = true) ↔ ∃ r ∈ records, r.key = k := by
  have hiff : predictiveSearch (New records).t (buildTrieKey k []) ≠ [] ↔
      ∃ r ∈ records, r.key = k := by
    unfold predictiveSearch
    rw [ne_eq, List.filter_eq_nil_iff]
    push_neg
    constructor
    · rintro ⟨tk, htk, hP⟩
      rw [new_t_keys] at htk
      have htk2 : tk ∈ records.map (fun r => buildTrieKey r.key r.value) :=
        ((List.perm_insertionSort LeC _).mem_iff).mp htk
      obtain ⟨r, hr, rfl⟩ := List.mem_map.mp htk2
      exact ⟨r, hr, (isPrefixOfB_build_iff k r.key r.value hk (hR r hr)).mp hP⟩
    · rintro ⟨r, hr, hkey⟩
      refine ⟨buildTrieKey r.key r.value, ?_, ?_⟩
      · rw [new_t_keys]
        exact ((List.perm_insertionSort LeC _).mem_iff).mpr
          (List.mem_map.mpr ⟨r, hr, rfl⟩)
      · exact (isPrefixOfB_build_iff k r.key r.value hk (hR r hr)).mpr hkey
  rw [exists_true_iff]
  unfold RecordTrie.iter
  rw [ne_eq, List.map_eq_nil_iff, ← ne_eq]
  exact hiff

/-- Witness for C4: a one-record store where the key is present. -/
theorem exists_correct_witness :
    ((New [⟨[1], [2]⟩]).Exists [1] = true) ↔
      ∃ r ∈ [(⟨[1], [2]⟩ : Record)], r.key = [1] :=
  exists_correct [⟨[1], [2]⟩] [1] (by decide) (by decide)

/-- C10: on any store, `Exists k` is true exactly when `Find k` is non-empty:
both search with the same composite prefix, `Exists` merely stops at the first
match. -/
theorem exists_iff_find_nonempty (r : RecordTrie) (k : List Nat) :
    (r.Exists k = true) ↔ r.Find k ≠ [] := by
  rw [exists_true_iff]
  unfold RecordTrie.Find
  simp [List.map_eq_nil_iff]

/-- C6 (amended): on a store built from records whose keys are free of the
separator byte, `Records()` returns exactly the stored records, ordered
ascending by their composite trie key (key ++ separator ++ value). -/
theorem records_correct (records : List Record)
    (hR : ∀ r ∈ records, KV_SEPARATOR ∉ r.key) :
    ((New records).Records).Perm records ∧
      (New records).Records = List.insertionSort RecLe records := by
  have heq : (New records).Records = List.insertionSort RecLe records := by
    rw [records_eq]
    have hfil : (New records).t.keys.filter (fun tk => isPrefixOfB [] tk) =
        (New records).t.keys :=
      List.filter_eq_self.mpr (fun a _ => rfl)
    rw [hfil, new_t_keys, ← map_insertionSort, List.map_map]
    have hid : ∀ r ∈ List.insertionSort RecLe records,
        ((fun tk => (⟨(splitTrieKey tk).1, (splitTrieKey tk).2⟩ : Record)) ∘
          (fun r => buildTrieKey r.key r.value)) r = id r := by
      intro r hr
      have hrk := hR r ((List.perm_insertionSort RecLe records).mem_iff.mp hr)
      simp [Function.comp, splitTrieKey_buildTrieKey r.key r.value hrk]
    rw [List.map_congr_left hid, List.map_id]
  exact ⟨heq ▸ List.perm_insertionSort RecLe records, heq⟩

/-- Counterexample for C6 as stated: for R = [("a","z"), ("ab","c")] (bytes
[97]/[122] and [97,98]/[99]), `Records()` enumerates ("ab","c") before
("a","z") — the composite "a\xFFz" sorts after "ab\xFFc" because the separator
byte 0xFF is larger than the byte "b" — so the result is not ascending by the
(key, value) pair. -/
theorem records_cex :
    ¬ (((New [⟨[97], [122]⟩, ⟨[97, 98], [99]⟩]).Records).Perm
          [⟨[97], [122]⟩, ⟨[97, 98], [99]⟩] ∧
        List.Sorted pairLe ((New [⟨[97], [122]⟩, ⟨[97, 98], [99]⟩]).Records)) := by
  decide

/-- Witness for C6 (amended) at the same two records. -/
theorem records_correct_witness :
    (((New [⟨[97], [122]⟩, ⟨[97, 98], [99]⟩]).Records).Perm
        [⟨[97], [122]⟩, ⟨[97, 98], [99]⟩]) ∧
      (New [⟨[97], [122]⟩, ⟨[97, 98], [99]⟩]).Records =
        List.insertionSort RecLe [⟨[97], [122]⟩, ⟨[97, 98], [99]⟩] :=
  records_correct [⟨[97], [122]⟩, ⟨[97, 98], [99]⟩] (by decide)

/-- C5 (amended): on a store built from records whose keys are free of the
separator byte, `KeysStartingWith pre` (for a separator-free prefix) returns
the key of every record whose key starts with the prefix, once per record,
enumerated ascending by the record's composite trie key. -/
theorem keys_starting_with_correct (records : List Record) (pre : List Nat)
    (hR : ∀ r ∈ records, KV_SEPARATOR ∉ r.key) (hp : KV_SEPARATOR ∉ pre) :
    ((New records).KeysStartingWith pre).Perm
        ((records.filter (fun r => isPrefixOfB pre r.key)).map Record.key) ∧
      (New records).KeysStartingWith pre =
        (List.insertionSort RecLe
            (records.filter (fun r => isPrefixOfB pre r.key))).map Record.key := by
  have hpt : ∀ r ∈ records,
      isPrefixOfB pre (buildTrieKey r.key r.value) = isPrefixOfB pre r.key := by
    intro r _
    exact bool_eq_of_iff (isPrefixOfB_raw_build pre r.key r.value hp)
  have hstep1 : (New records).t.keys.filter (fun tk => isPrefixOfB pre tk) =
      List.insertionSort LeC
        ((records.filter (fun r => isPrefixOfB pre r.key)).map
          (fun r => buildTrieKey r.key r.value)) := by
    refine List.eq_of_perm_of_sorted ?_ (filtered_sorted records _)
      (List.sorted_insertionSort LeC _)
    refine (filtered_perm records _).trans ?_
    rw [List.filter_congr hpt]
    exact (List.perm_insertionSort LeC _).symm
  have heq : (New records).KeysStartingWith pre =
      (List.insertionSort RecLe
          (records.filter (fun r => isPrefixOfB pre r.key))).map Record.key := by
    rw [keys_starting_with_eq, hstep1, ← map_insertionSort, List.map_map]
    apply List.map_congr_left
    intro r hr
    have hrmem : r ∈ records :=
      List.mem_of_mem_filter ((List.perm_insertionSort RecLe _).mem_iff.mp hr)
    simp [Function.comp, splitTrieKey_buildTrieKey r.key r.value (hR r hrmem)]
  refine ⟨?_, heq⟩
  rw [heq]
  exact (List.perm_insertionSort RecLe _).map Record.key

/-- Counterexample for C5 as stated: for R = [("a","z"), ("ab","c")] and the
prefix "a", the returned keys are ["ab", "a"] — the multiset is right but the
order is not ascending by (key, value), because the composite "a\xFFz" sorts
after "ab\xFFc". -/
theorem keys_starting_with_cex :
    ¬ (((New [⟨[97], [122]⟩, ⟨[97, 98], [99]⟩]).KeysStartingWith [97]).Perm
          ((([⟨[97], [122]⟩, ⟨[97, 98], [99]⟩] : List Record).filter
              (fun r => isPrefixOfB [97] r.key)).map Record.key) ∧
        List.Sorted LeC
          ((New [⟨[97], [122]⟩, ⟨[97, 98], [99]⟩]).KeysStartingWith [97])) := by
  decide

/-- Witness for C5 (amended) at the same two records and the prefix "a". -/
theorem keys_starting_with_correct_witness :
    (((New [⟨[97], [122]⟩, ⟨[97, 98], [99]⟩]).KeysStartingWith [97]).Perm
        ((([⟨[97], [122]⟩, ⟨[97, 98], [99]⟩] : List Record).filter
            (fun r => isPrefixOfB [97] r.key)).map Record.key)) ∧
      (New [⟨[97], [122]⟩, ⟨[97, 98], [99]⟩]).KeysStartingWith [97] =
        (List.insertionSort RecLe
            (([⟨[97], [122]⟩, ⟨[97, 98], [99]⟩] : List Record).filter
              (fun r => isPrefixOfB [97] r.key))).map Record.key :=
  keys_starting_with_correct [⟨[97], [122]⟩, ⟨[97, 98], [99]⟩] [97]
    (by decide) (by decide)

/-- C2: the code performs no key validation.  For the single record with key
"a\xFF" = [97, 255] and value "b" = [98], `New` raises no error of any kind
(it returns a built store), and the stored composite key later decodes to the
truncated key "a" = [97] with value "\xFFb" = [255, 98] — the silent
corruption the specification requires a ValidationError to prevent. -/
theorem new_no_validation :
    NewO false [⟨[97, 255], [98]⟩] = Outcome.ok (New [⟨[97, 255], [98]⟩]) ∧
      (New [⟨[97, 255], [98]⟩]).Records = [⟨[97], [255, 98]⟩] :=
  ⟨rfl, by decide⟩

/-- Counterexample for C8 as stated: an engine fault during the build performed
by `New` escapes it unhandled — `New` installs no `recover`, unlike `Save` and
`NewFromFile`. -/
theorem new_fault_escapes : (NewO true ([] : List Record)).isCrash = true := rfl

/-- C8 (amended): every abrupt engine fault raised during `Save` or
`NewFromFile` is caught by the deferred `recover` and converted into a
returned error; no fault escapes these two operations.  (`New` has no such
handler: see the counterexample.) -/
theorem save_load_catch_faults (fault : Bool) (r : RecordTrie) (path : String)
    (fs : FS) :
    (SaveO fault r path fs).isCrash = false ∧
      (NewFromFileO fault path fs).isCrash = false := by
  constructor
  · cases fault <;>
      simp [SaveO, trieSaveO, recoverToErr, Outcome.isCrash]
  · cases fault
    · cases hf : fs path <;>
        simp [NewFromFileO, trieMmapO, recoverToErr, Outcome.isCrash, hf]
    · simp [NewFromFileO, trieMmapO, recoverToErr, Outcome.isCrash]

/-- C9: saving a built store to a path and loading that path yields a store
that answers all four query operations exactly as the original, on every
input. -/
theorem save_load_roundtrip (records : List Record) (path : String) (fs : FS)
    (k pre : List Nat) :
    ∃ r2 : RecordTrie,
      NewFromFile path ((New records).Save path fs) = Except.ok r2 ∧
        r2.Exists k = (New records).Exists k ∧
        r2.Find k = (New records).Find k ∧
        r2.KeysStartingWith pre = (New records).KeysStartingWith pre ∧
        r2.Records = (New records).Records := by
  refine ⟨New records, ?_, rfl, rfl, rfl, rfl⟩
  simp [NewFromFile, RecordTrie.Save, trieSave]
